import Mathlib

/-!
Shallow embedding of `gdal_sliding_crop.py` (`crop_tif_images_with_gdal`).

Paths and strings are modelled as `List Char` over a POSIX filesystem
(`os.sep = '/'`).  The external collaborators are modelled by their observable
outcomes: `gdal.Open` by an `Option (Nat × Nat)` (no handle, or the raster's
`(RasterXSize, RasterYSize)`), `gdal.Translate` by the crop request it receives
plus an optional raised exception, `os.makedirs` by an optional raised
exception, and the `tqdm` progress bar by a trace of events.
-/

namespace GdalSlidingCrop

/-- The upper-to-lower case table of the ASCII letters. -/
def upperList : List (Char × Char) :=
  [('A', 'a'), ('B', 'b'), ('C', 'c'), ('D', 'd'), ('E', 'e'), ('F', 'f'),
   ('G', 'g'), ('H', 'h'), ('I', 'i'), ('J', 'j'), ('K', 'k'), ('L', 'l'),
   ('M', 'm'), ('N', 'n'), ('O', 'o'), ('P', 'p'), ('Q', 'q'), ('R', 'r'),
   ('S', 's'), ('T', 't'), ('U', 'u'), ('V', 'v'), ('W', 'w'), ('X', 'x'),
   ('Y', 'y'), ('Z', 'z')]

/-- ASCII model of Python `str.lower` on one character (the only characters whose
case matters here are those of the ".tif" suffix comparison). -/
def lowerChar (c : Char) : Char :=
  ((upperList.find? (fun p => p.1 == c)).map Prod.snd).getD c

/-- The test `file.lower().endswith('.' + supported_format)` of line 28, i.e. the
last four characters, lowercased, are ".tif". -/
def endsWithTifL (s : List Char) : Bool :=
  ((s.reverse.take 4).map lowerChar) == ['f', 'i', 't', '.']

/-- Decimal digit character, as produced by Python `str` formatting of a digit. -/
def digitChar : Nat → Char
  | 0 => '0' | 1 => '1' | 2 => '2' | 3 => '3' | 4 => '4'
  | 5 => '5' | 6 => '6' | 7 => '7' | 8 => '8' | _ => '9'

/-- Fuel-driven most-significant-first decimal digits of `n` (empty for 0). -/
def decAux : Nat → Nat → List Char
  | 0, _ => []
  | fuel + 1, n => if n = 0 then [] else decAux fuel (n / 10) ++ [digitChar (n % 10)]

/-- Decimal representation of a natural number, as Python f-string formatting
renders a non-negative int. -/
def decRepr (n : Nat) : List Char :=
  if n = 0 then ['0'] else decAux (n + 1) n

/-- Numeric value of a decimal digit character. -/
def charDigit (c : Char) : Nat := c.toNat - 48

/-- Evaluation of a most-significant-first digit string, used to show `decRepr`
is injective. -/
def ofDec (s : List Char) : Nat := s.foldl (fun a c => 10 * a + charDigit c) 0

/-- The character substitution of `base_name.replace(os.sep, '_')` (line 49),
applied characterwise since `os.sep` is the single character '/'. -/
def sepToU (c : Char) : Char := if c = '/' then '_' else c

/-- Split on '_' — first field and remaining fields.  Used only in proofs about
filename collisions, not by the embedded program itself. -/
def splitU1 : List Char → List Char × List (List Char)
  | [] => ([], [])
  | c :: cs =>
    let r := splitU1 cs
    if c = '_' then ([], r.1 :: r.2) else (c :: r.1, r.2)

/-- All '_'-separated fields of a character list. -/
def splitU (s : List Char) : List (List Char) := (splitU1 s).1 :: (splitU1 s).2

/-- Inverse of `splitU`: re-intercalate the fields with '_'. -/
def unsplitU : List (List Char) → List Char
  | [] => []
  | [s] => s
  | s :: ss => s ++ '_' :: unsplitU ss

/-- Python `str.rfind` for a single character: highest index holding `c`, else -1. -/
def lastIndexOf (c : Char) : List Char → Int
  | [] => -1
  | a :: s =>
    let r := lastIndexOf c s
    if 0 ≤ r then r + 1 else if a = c then 0 else -1

/-- Model of `os.path.splitext` (CPython `genericpath._splitext` with POSIX
`sep = '/'`, no altsep, `extsep = '.'`): split at the last dot provided it lies
after the last separator and the basename is not entirely leading dots up to it. -/
def splitext (p : List Char) : List Char × List Char :=
  let sepIndex : Int := lastIndexOf '/' p
  let dotIndex : Int := lastIndexOf '.' p
  if sepIndex < dotIndex ∧
      (((p.drop (sepIndex + 1).toNat).take (dotIndex - sepIndex - 1).toNat).any
        (fun c => c != '.')) = true then
    (p.take dotIndex.toNat, p.drop dotIndex.toNat)
  else (p, [])

/-- Python `range(0, stop, step)` where `stop` may be non-positive (then empty)
and `step` is positive (the script always passes a positive `step_size`;
`step = 0` raises in Python and is never used here). -/
def pyRange (stop : Int) (step : Nat) : List Nat :=
  if stop ≤ 0 then [] else (List.range ((stop.toNat - 1) / step + 1)).map (· * step)

/-- The fixed configuration of a run: `window_size = (w, h)` and `step_size = s`. -/
structure Cfg where
  w : Nat
  h : Nat
  s : Nat
  deriving DecidableEq

/-- The grid of crop origins of lines 40-41, in invocation order: `top` ranges
over `range(0, H - h + 1, s)` (outer loop), `left` over `range(0, W - w + 1, s)`
(inner loop).  Elements are `(top, left)` pairs. -/
def fileWindows (cfg : Cfg) (W H : Nat) : List (Nat × Nat) :=
  (pyRange ((H : Int) - (cfg.h : Int) + 1) cfg.s).flatMap fun top =>
    (pyRange ((W : Int) - (cfg.w : Int) + 1) cfg.s).map fun left => (top, left)

/-- The output filename of line 49:
`f"{base_name.replace(os.sep, '_')}_{left}_{top}_{right}_{bottom}{ext}"`
where `(base_name, ext) = os.path.splitext(relative_path)`. -/
def croppedImgName (rel : List Char) (left top right bottom : Nat) : List Char :=
  let be := splitext rel
  be.1.map sepToU ++
    '_' :: decRepr left ++ '_' :: decRepr top ++ '_' :: decRepr right ++
    '_' :: decRepr bottom ++ be.2

/-- The naming rule as the spec words it: take the source path relative to the
input directory, split off the final extension into `base` and `ext`, replace
every path-separator character of `base` by an underscore giving `flat_base`,
and form `flat_base + "_" + left + "_" + top + "_" + right + "_" + bottom + ext`. -/
def specTileName (rel : List Char) (left top right bottom : Nat) : List Char :=
  let base := (splitext rel).1
  let ext := (splitext rel).2
  let flat_base := base.map sepToU
  flat_base ++ "_".data ++ decRepr left ++ "_".data ++ decRepr top ++
    "_".data ++ decRepr right ++ "_".data ++ decRepr bottom ++ ext

/-- The flat part of a tile name followed by the four coordinates — the whole
name minus the extension.  Proof-only decomposition of `croppedImgName`. -/
def nameBody (flat : List Char) (left top right bottom : Nat) : List Char :=
  flat ++ '_' :: decRepr left ++ '_' :: decRepr top ++ '_' :: decRepr right ++
    '_' :: decRepr bottom

/-- One invocation of `gdal.Translate` (lines 42-54): the computed box, the
generated name, the output path `os.path.join(output_directory, name)` (the
directory is taken without a trailing separator), and the crop request
`srcWin = (left, top, w, h)` with output format "GTiff". -/
structure CropCall where
  left : Nat
  top : Nat
  right : Nat
  bottom : Nat
  name : List Char
  outPath : List Char
  srcwin : Nat × Nat × Nat × Nat
  fmt : List Char
  deriving DecidableEq

/-- Build the `CropCall` for grid origin `(top, left)` exactly as lines 43-54 do. -/
def mkCropCall (cfg : Cfg) (outDir rel : List Char) (tl : Nat × Nat) : CropCall :=
  let top := tl.1
  let left := tl.2
  let bottom := top + cfg.h
  let right := left + cfg.w
  let name := croppedImgName rel left top right bottom
  { left := left, top := top, right := right, bottom := bottom,
    name := name, outPath := outDir ++ '/' :: name,
    srcwin := (left, top, cfg.w, cfg.h), fmt := "GTiff".data }

/-- A discovered source file together with the observable behaviour of the
external raster library on it: `path` is the walked path (`tif_path`), `rel`
its path relative to the input directory (`os.path.relpath`, an OS primitive,
precomputed), `openResult` the outcome of `gdal.Open` (`none` = no valid
handle), and `failAt = some k` means the k-th `gdal.Translate` call for this
file raises an exception with message `failMsg`. -/
structure SrcFile where
  path : List Char
  rel : List Char
  openResult : Option (Nat × Nat)
  failAt : Option Nat
  failMsg : List Char
  deriving DecidableEq

/-- The diagnostic line of line 56: `f"Error processing {tif_path}: {e}"`. -/
def errLine (path msg : List Char) : List Char :=
  "Error processing ".data ++ path ++ ": ".data ++ msg

/-- The body of the per-file loop (lines 34-56): crops actually written and
diagnostic lines printed for one file.  An unopenable file is skipped via
`continue` (line 37); an exception at the k-th crop leaves the first k crops
written and produces one formatted diagnostic line. -/
def processFile (cfg : Cfg) (outDir : List Char) (f : SrcFile) :
    List CropCall × List (List Char) :=
  match f.openResult with
  | none => ([], [])
  | some (W, H) =>
    let ws := fileWindows cfg W H
    match f.failAt with
    | none => (ws.map (mkCropCall cfg outDir f.rel), [])
    | some k =>
      if k < ws.length then
        ((ws.take k).map (mkCropCall cfg outDir f.rel), [errLine f.path f.failMsg])
      else
        (ws.map (mkCropCall cfg outDir f.rel), [])

/-- Progress-bar events: `progress_bar.update(1)` in the `finally` block, and
`progress_bar.close()` after the loop. -/
inductive Ev where
  | tick : Ev
  | close : Ev
  deriving DecidableEq

/-- The per-file loop of lines 33-58: accumulated crops, accumulated diagnostic
lines, and one progress tick per attempted file. -/
def loopFiles (cfg : Cfg) (outDir : List Char) :
    List SrcFile → List CropCall × List (List Char) × List Ev
  | [] => ([], [], [])
  | f :: rest =>
    let r := processFile cfg outDir f
    let t := loopFiles cfg outDir rest
    (r.1 ++ t.1, r.2 ++ t.2.1, Ev.tick :: t.2.2)

/-- Everything a completed run produced: crop requests issued, diagnostics
printed, and the progress-event trace (updates then close). -/
structure RunResult where
  crops : List CropCall
  logs : List (List Char)
  events : List Ev
  deriving DecidableEq

/-- Assemble the `RunResult` of a run over the discovered files. -/
def mkRunResult (cfg : Cfg) (outDir : List Char) (files : List SrcFile) : RunResult :=
  let t := loopFiles cfg outDir files
  { crops := t.1, logs := t.2.1, events := t.2.2 ++ [Ev.close] }

/-- A run's environment: whether the output directory already exists
(`os.path.exists`), the outcome of `os.makedirs` if attempted (`some e` = it
raises `e`), and the source files discovered by `os.walk` filtered to ".tif"
(in traversal order). -/
structure Env where
  outDirExists : Bool
  mkdirErr : Option (List Char)
  files : List SrcFile
  deriving DecidableEq

/-- The whole of `crop_tif_images_with_gdal` (lines 18-60): create the output
directory if absent — a failure there propagates and nothing is processed —
then run the per-file loop and close the progress bar. -/
def run (cfg : Cfg) (outDir : List Char) (env : Env) :
    Except (List Char) RunResult :=
  if env.outDirExists then .ok (mkRunResult cfg outDir env.files)
  else
    match env.mkdirErr with
    | some e => .error e
    | none => .ok (mkRunResult cfg outDir env.files)

/-! ### Equation lemmas for `processFile` -/

theorem processFile_open_none (cfg : Cfg) (outDir : List Char) (f : SrcFile)
    (h : f.openResult = none) : processFile cfg outDir f = ([], []) := by
  unfold processFile
  rw [h]

theorem processFile_ok (cfg : Cfg) (outDir : List Char) (f : SrcFile) (W H : Nat)
    (hopen : f.openResult = some (W, H)) (hfail : f.failAt = none) :
    processFile cfg outDir f =
      ((fileWindows cfg W H).map (mkCropCall cfg outDir f.rel), []) := by
  unfold processFile
  rw [hopen, hfail]

theorem processFile_fail (cfg : Cfg) (outDir : List Char) (f : SrcFile) (W H k : Nat)
    (hopen : f.openResult = some (W, H)) (hfail : f.failAt = some k)
    (hk : k < (fileWindows cfg W H).length) :
    processFile cfg outDir f =
      (((fileWindows cfg W H).take k).map (mkCropCall cfg outDir f.rel),
        [errLine f.path f.failMsg]) := by
  unfold processFile
  rw [hopen, hfail]
  simp [hk]

theorem processFile_fail_late (cfg : Cfg) (outDir : List Char) (f : SrcFile) (W H k : Nat)
    (hopen : f.openResult = some (W, H)) (hfail : f.failAt = some k)
    (hk : (fileWindows cfg W H).length ≤ k) :
    processFile cfg outDir f =
      ((fileWindows cfg W H).map (mkCropCall cfg outDir f.rel), []) := by
  unfold processFile
  rw [hopen, hfail]
  simp [Nat.not_lt.2 hk]

/-! ### The window grid -/

theorem pyRange_length (stop : Int) (step : Nat) :
    (pyRange stop step).length = if stop ≤ 0 then 0 else (stop.toNat - 1) / step + 1 := by
  unfold pyRange
  split <;> simp

theorem mem_pyRange {x : Nat} {stop : Int} {step : Nat} (hx : x ∈ pyRange stop step) :
    ∃ i, x = i * step ∧ i ≤ (stop.toNat - 1) / step ∧ 0 < stop := by
  unfold pyRange at hx
  split at hx
  · simp at hx
  · obtain ⟨i, hi, rfl⟩ := List.mem_map.1 hx
    exact ⟨i, rfl, Nat.lt_succ_iff.mp (List.mem_range.1 hi), by omega⟩

theorem mem_pyRange_lt {x : Nat} {stop : Int} {step : Nat} (hs : 0 < step)
    (hx : x ∈ pyRange stop step) : (x : Int) < stop := by
  obtain ⟨i, rfl, hi, hpos⟩ := mem_pyRange hx
  have h1 : i * step ≤ stop.toNat - 1 := (Nat.le_div_iff_mul_le hs).mp hi
  omega

theorem pyRange_pairwise (stop : Int) {step : Nat} (hs : 0 < step) :
    (pyRange stop step).Pairwise (· < ·) := by
  unfold pyRange
  split
  · simp
  · exact List.pairwise_map.2
      ((List.pairwise_lt_range _).imp fun h => (Nat.mul_lt_mul_right hs).2 h)

theorem flatMap_grid_length (ts ls : List Nat) :
    (ts.flatMap fun t => ls.map fun l => (t, l)).length = ts.length * ls.length := by
  induction ts with
  | nil => simp
  | cons t ts ih =>
    rw [List.flatMap_cons, List.length_append, ih]
    simp [Nat.succ_mul, Nat.add_comm]

theorem fileWindows_length (cfg : Cfg) (W H : Nat) :
    (fileWindows cfg W H).length =
      (pyRange ((H : Int) - (cfg.h : Int) + 1) cfg.s).length *
        (pyRange ((W : Int) - (cfg.w : Int) + 1) cfg.s).length :=
  flatMap_grid_length _ _

theorem pyRange_count (B c s : Nat) :
    (pyRange ((B : Int) - (c : Int) + 1) s).length =
      if c ≤ B then (B - c) / s + 1 else 0 := by
  rw [pyRange_length]
  rcases le_or_lt c B with h | h
  · rw [if_neg (show ¬((B : Int) - (c : Int) + 1 ≤ 0) by omega), if_pos h]
    have e : ((B : Int) - (c : Int) + 1).toNat - 1 = B - c := by omega
    rw [e]
  · rw [if_pos (by omega), if_neg (by omega)]

theorem mem_fileWindows {cfg : Cfg} {W H : Nat} {tl : Nat × Nat}
    (h : tl ∈ fileWindows cfg W H) :
    tl.1 ∈ pyRange ((H : Int) - (cfg.h : Int) + 1) cfg.s ∧
      tl.2 ∈ pyRange ((W : Int) - (cfg.w : Int) + 1) cfg.s := by
  unfold fileWindows at h
  obtain ⟨t, ht, hm⟩ := List.mem_flatMap.1 h
  obtain ⟨l, hl, rfl⟩ := List.mem_map.1 hm
  exact ⟨ht, hl⟩

theorem pairwise_grid (ts ls : List Nat) (hts : ts.Pairwise (· < ·))
    (hls : ls.Pairwise (· < ·)) :
    (ts.flatMap fun t => ls.map fun l => (t, l)).Pairwise
      (fun a b => a.1 < b.1 ∨ (a.1 = b.1 ∧ a.2 < b.2)) := by
  induction ts with
  | nil => simp
  | cons t ts ih =>
    rw [List.flatMap_cons, List.pairwise_append]
    refine ⟨?_, ih hts.of_cons, ?_⟩
    · rw [List.pairwise_map]
      exact hls.imp fun h => Or.inr ⟨rfl, h⟩
    · intro a ha b hb
      obtain ⟨l, -, rfl⟩ := List.mem_map.1 ha
      obtain ⟨t2, ht2, hm⟩ := List.mem_flatMap.1 hb
      obtain ⟨l2, -, rfl⟩ := List.mem_map.1 hm
      exact Or.inl (List.rel_of_pairwise_cons hts ht2)

/-- C1: for a processed raster of width W and height H with positive window
(w, h) and positive step s, the number of crop operations invoked equals
floor((H-h)/s + 1) * floor((W-w)/s + 1) when W ≥ w and H ≥ h, and 0 when
W < w or H < h. -/
theorem tile_count (cfg : Cfg) (W H : Nat) (outDir : List Char) (f : SrcFile)
    (_hw : 0 < cfg.w) (_hh : 0 < cfg.h) (_hs : 0 < cfg.s)
    (hopen : f.openResult = some (W, H)) (hfail : f.failAt = none) :
    (processFile cfg outDir f).1.length =
      if cfg.w ≤ W ∧ cfg.h ≤ H then
        ((H - cfg.h) / cfg.s + 1) * ((W - cfg.w) / cfg.s + 1)
      else 0 := by
  rw [processFile_ok cfg outDir f W H hopen hfail]
  simp only [List.length_map]
  rw [fileWindows_length, pyRange_count, pyRange_count]
  by_cases h1 : cfg.h ≤ H <;> by_cases h2 : cfg.w ≤ W <;>
    simp [h1, h2]

theorem tile_count_witness :
    (processFile ⟨2, 2, 1⟩ [] ⟨[], [], some (3, 2), none, []⟩).1.length =
      if 2 ≤ 3 ∧ 2 ≤ 2 then ((2 - 2) / 1 + 1) * ((3 - 2) / 1 + 1) else 0 :=
  tile_count ⟨2, 2, 1⟩ 3 2 [] ⟨[], [], some (3, 2), none, []⟩
    (by decide) (by decide) (by decide) rfl rfl

/-- C2: every crop window generated for a file of dimensions W × H with window
(w, h) and positive step s satisfies right = left + w ≤ W and
bottom = top + h ≤ H (left and top are naturals, hence non-negative); no window
extends past the raster bounds. -/
theorem crop_in_bounds (cfg : Cfg) (W H : Nat) (outDir : List Char) (f : SrcFile)
    (hs : 0 < cfg.s) (hopen : f.openResult = some (W, H))
    (c : CropCall) (hc : c ∈ (processFile cfg outDir f).1) :
    c.right = c.left + cfg.w ∧ c.bottom = c.top + cfg.h ∧
      c.right ≤ W ∧ c.bottom ≤ H := by
  have hwin : ∃ tl ∈ fileWindows cfg W H, c = mkCropCall cfg outDir f.rel tl := by
    rcases hfa : f.failAt with - | k
    · rw [processFile_ok cfg outDir f W H hopen hfa] at hc
      obtain ⟨tl, htl, rfl⟩ := List.mem_map.1 hc
      exact ⟨tl, htl, rfl⟩
    · rcases lt_or_le k (fileWindows cfg W H).length with hk | hk
      · rw [processFile_fail cfg outDir f W H k hopen hfa hk] at hc
        obtain ⟨tl, htl, rfl⟩ := List.mem_map.1 hc
        exact ⟨tl, List.take_subset _ _ htl, rfl⟩
      · rw [processFile_fail_late cfg outDir f W H k hopen hfa hk] at hc
        obtain ⟨tl, htl, rfl⟩ := List.mem_map.1 hc
        exact ⟨tl, htl, rfl⟩
  obtain ⟨tl, htl, rfl⟩ := hwin
  obtain ⟨ht, hl⟩ := mem_fileWindows htl
  have h1 : ((tl.1 : Int)) < (H : Int) - (cfg.h : Int) + 1 := mem_pyRange_lt hs ht
  have h2 : ((tl.2 : Int)) < (W : Int) - (cfg.w : Int) + 1 := mem_pyRange_lt hs hl
  simp only [mkCropCall]
  refine ⟨trivial, trivial, by omega, by omega⟩

theorem crop_in_bounds_witness :
    (mkCropCall ⟨2, 2, 1⟩ [] [] (0, 1)).right = (mkCropCall ⟨2, 2, 1⟩ [] [] (0, 1)).left + 2 ∧
      (mkCropCall ⟨2, 2, 1⟩ [] [] (0, 1)).bottom = (mkCropCall ⟨2, 2, 1⟩ [] [] (0, 1)).top + 2 ∧
      (mkCropCall ⟨2, 2, 1⟩ [] [] (0, 1)).right ≤ 3 ∧
      (mkCropCall ⟨2, 2, 1⟩ [] [] (0, 1)).bottom ≤ 2 :=
  crop_in_bounds ⟨2, 2, 1⟩ 3 2 [] ⟨[], [], some (3, 2), none, []⟩
    (by decide) rfl (mkCropCall ⟨2, 2, 1⟩ [] [] (0, 1)) (by decide)

/-- C10: within one file the crop origins are produced in deterministic
row-major order — the sequence of (top, left) pairs is strictly
lexicographically increasing, and every top and left is a multiple of the
step s. -/
theorem windows_row_major (cfg : Cfg) (W H : Nat) (hs : 0 < cfg.s) :
    (fileWindows cfg W H).Pairwise
        (fun a b => a.1 < b.1 ∨ (a.1 = b.1 ∧ a.2 < b.2)) ∧
      ∀ tl ∈ fileWindows cfg W H, (∃ i, tl.1 = i * cfg.s) ∧ ∃ j, tl.2 = j * cfg.s := by
  constructor
  · exact pairwise_grid _ _ (pyRange_pairwise _ hs) (pyRange_pairwise _ hs)
  · intro tl h
    obtain ⟨ht, hl⟩ := mem_fileWindows h
    obtain ⟨i, hi, -, -⟩ := mem_pyRange ht
    obtain ⟨j, hj, -, -⟩ := mem_pyRange hl
    exact ⟨⟨i, hi⟩, ⟨j, hj⟩⟩

theorem windows_row_major_witness :
    (fileWindows ⟨2, 2, 1⟩ 3 2).Pairwise
        (fun a b => a.1 < b.1 ∨ (a.1 = b.1 ∧ a.2 < b.2)) ∧
      ∀ tl ∈ fileWindows ⟨2, 2, 1⟩ 3 2,
        (∃ i, tl.1 = i * 1) ∧ ∃ j, tl.2 = j * 1 :=
  windows_row_major ⟨2, 2, 1⟩ 3 2 (by decide)

/-! ### Per-file error handling and the run loop -/

theorem loopFiles_cons (cfg : Cfg) (outDir : List Char) (f : SrcFile)
    (rest : List SrcFile) :
    loopFiles cfg outDir (f :: rest) =
      ((processFile cfg outDir f).1 ++ (loopFiles cfg outDir rest).1,
        (processFile cfg outDir f).2 ++ (loopFiles cfg outDir rest).2.1,
        Ev.tick :: (loopFiles cfg outDir rest).2.2) := rfl

theorem loopFiles_events (cfg : Cfg) (outDir : List Char) (fs : List SrcFile) :
    (loopFiles cfg outDir fs).2.2 = List.replicate fs.length Ev.tick := by
  induction fs with
  | nil => rfl
  | cons f rest ih => simp [loopFiles, ih, List.replicate_succ]

/-- C4 counterexample: for a concrete file on which the raster open returns no
valid handle, the code emits zero diagnostic lines, not exactly one — line 37
is a bare `continue` with no logging. -/
theorem unopenable_one_log_counterexample :
    ¬ ((processFile ⟨2, 2, 1⟩ []
        ⟨"a.tif".data, "a.tif".data, none, none, []⟩).2.length = 1) := by
  decide

/-- C4 (amended): a file for which the raster open operation returns no valid
handle is skipped silently — zero output tiles and zero diagnostic log lines —
the progress indicator still advances by one unit for it, and processing
continues with the next file rather than aborting the batch. -/
theorem unopenable_skipped (cfg : Cfg) (outDir : List Char) (f : SrcFile)
    (rest : List SrcFile) (h : f.openResult = none) :
    processFile cfg outDir f = ([], []) ∧
      loopFiles cfg outDir (f :: rest) =
        ((loopFiles cfg outDir rest).1, (loopFiles cfg outDir rest).2.1,
          Ev.tick :: (loopFiles cfg outDir rest).2.2) := by
  have hp := processFile_open_none cfg outDir f h
  refine ⟨hp, ?_⟩
  rw [loopFiles_cons, hp]
  simp

theorem unopenable_skipped_witness :
    processFile ⟨2, 2, 1⟩ [] ⟨"a.tif".data, "a.tif".data, none, none, []⟩ = ([], []) ∧
      loopFiles ⟨2, 2, 1⟩ [] [⟨"a.tif".data, "a.tif".data, none, none, []⟩] =
        ((loopFiles ⟨2, 2, 1⟩ [] []).1, (loopFiles ⟨2, 2, 1⟩ [] []).2.1,
          Ev.tick :: (loopFiles ⟨2, 2, 1⟩ [] []).2.2) :=
  unopenable_skipped ⟨2, 2, 1⟩ [] ⟨"a.tif".data, "a.tif".data, none, none, []⟩ [] rfl

/-- C5: an error raised while cropping a file (the k-th crop call raises) is
caught at the per-file loop boundary and converted to the logged message
"Error processing {path}: {message}"; the k crops already written are kept
(no rollback), the remaining windows of the file are abandoned, and
processing proceeds with the next files — the loop is a total function of its
inputs, so no per-file error escapes to the caller. -/
theorem per_file_error_contained (cfg : Cfg) (outDir : List Char) (f : SrcFile)
    (rest : List SrcFile) (W H k : Nat)
    (hopen : f.openResult = some (W, H)) (hfail : f.failAt = some k)
    (hk : k < (fileWindows cfg W H).length) :
    processFile cfg outDir f =
      (((fileWindows cfg W H).take k).map (mkCropCall cfg outDir f.rel),
        ["Error processing ".data ++ f.path ++ ": ".data ++ f.failMsg]) ∧
      loopFiles cfg outDir (f :: rest) =
        (((fileWindows cfg W H).take k).map (mkCropCall cfg outDir f.rel) ++
            (loopFiles cfg outDir rest).1,
          ("Error processing ".data ++ f.path ++ ": ".data ++ f.failMsg) ::
            (loopFiles cfg outDir rest).2.1,
          Ev.tick :: (loopFiles cfg outDir rest).2.2) := by
  have hp := processFile_fail cfg outDir f W H k hopen hfail hk
  refine ⟨hp, ?_⟩
  rw [loopFiles_cons, hp]
  simp [errLine]

theorem per_file_error_contained_witness :
    processFile ⟨1, 1, 1⟩ [] ⟨"p.tif".data, "p.tif".data, some (2, 1), some 1, "boom".data⟩ =
      (((fileWindows ⟨1, 1, 1⟩ 2 1).take 1).map (mkCropCall ⟨1, 1, 1⟩ [] "p.tif".data),
        ["Error processing ".data ++ "p.tif".data ++ ": ".data ++ "boom".data]) ∧
      loopFiles ⟨1, 1, 1⟩ [] [⟨"p.tif".data, "p.tif".data, some (2, 1), some 1, "boom".data⟩] =
        (((fileWindows ⟨1, 1, 1⟩ 2 1).take 1).map (mkCropCall ⟨1, 1, 1⟩ [] "p.tif".data) ++
            (loopFiles ⟨1, 1, 1⟩ [] []).1,
          ("Error processing ".data ++ "p.tif".data ++ ": ".data ++ "boom".data) ::
            (loopFiles ⟨1, 1, 1⟩ [] []).2.1,
          Ev.tick :: (loopFiles ⟨1, 1, 1⟩ [] []).2.2) :=
  per_file_error_contained ⟨1, 1, 1⟩ []
    ⟨"p.tif".data, "p.tif".data, some (2, 1), some 1, "boom".data⟩ [] 2 1 1
    rfl rfl (by decide)

/-- C7: whatever each file does (succeeds, partially succeeds, is skipped, or
raises), the run advances the progress indicator by exactly one unit per
attempted file and then closes it: the event trace of a completed run is one
tick per discovered file followed by a close, and the operation returns
nothing beyond its recorded effects. -/
theorem progress_one_tick_per_file (cfg : Cfg) (outDir : List Char)
    (me : Option (List Char)) (files : List SrcFile) :
    run cfg outDir ⟨true, me, files⟩ = .ok (mkRunResult cfg outDir files) ∧
      (mkRunResult cfg outDir files).events =
        List.replicate files.length Ev.tick ++ [Ev.close] := by
  refine ⟨rfl, ?_⟩
  simp [mkRunResult, loopFiles_events]

/-- C8: the output directory is created before any processing; if it does not
exist and its creation fails, the failure propagates immediately out of the
operation — the run is that error, no source file is processed and no output
is produced — while a successful creation (or an already existing directory)
lets the run proceed. -/
theorem mkdir_failure_fatal (cfg : Cfg) (outDir e : List Char) (files : List SrcFile)
    (me : Option (List Char)) :
    run cfg outDir ⟨false, some e, files⟩ = .error e ∧
      run cfg outDir ⟨false, none, files⟩ = .ok (mkRunResult cfg outDir files) ∧
      run cfg outDir ⟨true, me, files⟩ = .ok (mkRunResult cfg outDir files) :=
  ⟨rfl, rfl, rfl⟩

/-- C9: running the extractor twice on the same inputs (same discovered files
with the same dimensions and behaviour, same window and step configuration,
same output directory) produces identical results — the same crop requests
(output path, srcWin, output format) in the same order, hence the
same output file set — provided each run can find or create its output
directory. -/
theorem rerun_deterministic (cfg : Cfg) (outDir : List Char) (env1 env2 : Env)
    (hf : env1.files = env2.files)
    (h1 : env1.outDirExists = true ∨ env1.mkdirErr = none)
    (h2 : env2.outDirExists = true ∨ env2.mkdirErr = none) :
    run cfg outDir env1 = run cfg outDir env2 ∧
      run cfg outDir env1 = .ok (mkRunResult cfg outDir env1.files) := by
  have key : ∀ env : Env, (env.outDirExists = true ∨ env.mkdirErr = none) →
      run cfg outDir env = .ok (mkRunResult cfg outDir env.files) := by
    intro env h
    unfold run
    split
    · rfl
    · next hne =>
      rcases h with h | h
      · exact absurd h (by simpa using hne)
      · rw [h]
  refine ⟨?_, key env1 h1⟩
  rw [key env1 h1, key env2 h2, hf]

theorem rerun_deterministic_witness :
    run ⟨2, 2, 1⟩ [] ⟨false, none, [⟨"a.tif".data, "a.tif".data, some (3, 2), none, []⟩]⟩ =
        run ⟨2, 2, 1⟩ [] ⟨true, none, [⟨"a.tif".data, "a.tif".data, some (3, 2), none, []⟩]⟩ ∧
      run ⟨2, 2, 1⟩ [] ⟨false, none, [⟨"a.tif".data, "a.tif".data, some (3, 2), none, []⟩]⟩ =
        .ok (mkRunResult ⟨2, 2, 1⟩ [] [⟨"a.tif".data, "a.tif".data, some (3, 2), none, []⟩]) :=
  rerun_deterministic ⟨2, 2, 1⟩ []
    ⟨false, none, [⟨"a.tif".data, "a.tif".data, some (3, 2), none, []⟩]⟩
    ⟨true, none, [⟨"a.tif".data, "a.tif".data, some (3, 2), none, []⟩]⟩
    rfl (Or.inr rfl) (Or.inl rfl)

/-! ### Characters, digits and underscore fields -/

theorem lowerChar_dot {c : Char} (h : lowerChar c = '.') : c = '.' := by
  unfold lowerChar at h
  cases hf : upperList.find? (fun p => p.1 == c) with
  | none => rw [hf] at h; simpa using h
  | some p =>
    rw [hf] at h
    simp at h
    have hp := List.mem_of_find?_eq_some hf
    have hq : ∀ q ∈ upperList, q.2 ≠ '.' := by decide
    exact absurd h (hq p hp)

theorem ne_of_lowerChar {c x y : Char} (hx : lowerChar c = x)
    (hy : lowerChar y ≠ x) : c ≠ y := fun h => hy (h ▸ hx)

theorem digitChar_mem (k : Nat) : digitChar k ∈ "0123456789".data := by
  match k with
  | 0 | 1 | 2 | 3 | 4 | 5 | 6 | 7 | 8 => decide
  | n + 9 => exact (by decide : ('9' : Char) ∈ "0123456789".data)

theorem digit_char_facts :
    ∀ c ∈ "0123456789".data, lowerChar c ≠ 'f' ∧ c ≠ '/' ∧ c ≠ '_' := by decide

theorem mem_decAux {c : Char} {fuel n : Nat} (h : c ∈ decAux fuel n) :
    c ∈ "0123456789".data := by
  induction fuel generalizing n with
  | zero => simp [decAux] at h
  | succ fuel ih =>
    rw [decAux] at h
    split at h
    · simp at h
    · rcases List.mem_append.1 h with h | h
      · exact ih h
      · rw [List.mem_singleton.1 h]
        exact digitChar_mem _

theorem mem_decRepr {c : Char} {n : Nat} (h : c ∈ decRepr n) :
    c ∈ "0123456789".data := by
  unfold decRepr at h
  split at h
  · rw [List.mem_singleton.1 h]; decide
  · exact mem_decAux h

theorem decRepr_ne_nil (n : Nat) : decRepr n ≠ [] := by
  unfold decRepr
  split
  · simp
  · rw [decAux, if_neg (by omega)]
    simp

theorem splitU1_append (x y : List Char) :
    splitU1 (x ++ '_' :: y) = ((splitU1 x).1, (splitU1 x).2 ++ splitU y) := by
  induction x with
  | nil => simp [splitU1, splitU]
  | cons c cs ih =>
    rw [List.cons_append]
    by_cases hc : c = '_' <;> simp [splitU1, ih, hc, splitU]

theorem splitU_append (x y : List Char) :
    splitU (x ++ '_' :: y) = splitU x ++ splitU y := by
  simp [splitU, splitU1_append]

theorem splitU1_no_underscore (x : List Char) (h : ∀ c ∈ x, c ≠ '_') :
    splitU1 x = (x, []) := by
  induction x with
  | nil => rfl
  | cons c cs ih =>
    simp only [splitU1, ih fun d hd => h d (List.mem_cons_of_mem c hd)]
    simp [h c (List.mem_cons_self c cs)]

theorem splitU_no_underscore (x : List Char) (h : ∀ c ∈ x, c ≠ '_') :
    splitU x = [x] := by
  simp [splitU, splitU1_no_underscore x h]

theorem splitU_decRepr (n : Nat) : splitU (decRepr n) = [decRepr n] :=
  splitU_no_underscore _ fun c hc => (digit_char_facts c (mem_decRepr hc)).2.2

theorem unsplitU_splitU (s : List Char) : unsplitU (splitU s) = s := by
  induction s with
  | nil => rfl
  | cons c cs ih =>
    rcases hr : splitU1 cs with ⟨hd, tl⟩
    have hcs : splitU cs = hd :: tl := by simp [splitU, hr]
    rw [hcs] at ih
    by_cases hc : c = '_'
    · subst hc
      have h1 : splitU ('_' :: cs) = [] :: hd :: tl := by
        simp [splitU, splitU1, hr]
      rw [h1]
      show ([] : List Char) ++ '_' :: unsplitU (hd :: tl) = '_' :: cs
      rw [List.nil_append, ih]
    · have h1 : splitU (c :: cs) = (c :: hd) :: tl := by
        simp [splitU, splitU1, hr, hc]
      rw [h1]
      cases tl with
      | nil =>
        show c :: hd = c :: cs
        have : hd = cs := ih
        rw [this]
      | cons t ts =>
        show (c :: hd) ++ '_' :: unsplitU (t :: ts) = c :: cs
        have h2 : hd ++ '_' :: unsplitU (t :: ts) = cs := ih
        rw [List.cons_append, h2]

theorem splitU_injective {a b : List Char} (h : splitU a = splitU b) : a = b := by
  rw [← unsplitU_splitU a, h, unsplitU_splitU]

/-! ### splitext on walked filenames -/

theorem lastIndexOf_lt_length (c : Char) (s : List Char) :
    lastIndexOf c s < (s.length : Int) := by
  induction s with
  | nil => simp [lastIndexOf]
  | cons a s ih =>
    simp only [lastIndexOf, List.length_cons]
    split
    · push_cast
      omega
    · split <;> (push_cast; omega)

theorem lastIndexOf_not_mem (c : Char) (s : List Char) (h : c ∉ s) :
    lastIndexOf c s = -1 := by
  induction s with
  | nil => rfl
  | cons a s ih =>
    have ha : a ≠ c := fun e => h (e ▸ List.mem_cons_self a s)
    have hs : c ∉ s := fun e => h (List.mem_cons_of_mem a e)
    simp [lastIndexOf, ih hs, ha]

theorem lastIndexOf_append_not_mem (c : Char) (pre suf : List Char) (h : c ∉ suf) :
    lastIndexOf c (pre ++ suf) = lastIndexOf c pre := by
  induction pre with
  | nil => simp [lastIndexOf_not_mem c suf h, lastIndexOf]
  | cons a pre ih => simp [lastIndexOf, ih]

theorem lastIndexOf_append_last (c : Char) (pre suf : List Char) (h : c ∉ suf) :
    lastIndexOf c (pre ++ c :: suf) = (pre.length : Int) := by
  induction pre with
  | nil =>
    simp [lastIndexOf, lastIndexOf_not_mem c suf h]
  | cons a pre ih =>
    have h0 : (0 : Int) ≤ (pre.length : Int) := by positivity
    simp [lastIndexOf, ih, h0]

/-- Dichotomy of `os.path.splitext` on a path whose last four characters are a
dot followed by three non-dot characters: either it splits exactly there, or
(when everything between the last separator and that dot is dots) it returns an
empty extension. -/
theorem splitext_tif (q : List Char) (e2 e3 e4 : Char)
    (h2 : e2 ≠ '.') (h3 : e3 ≠ '.') (h4 : e4 ≠ '.') :
    splitext (q ++ ['.', e2, e3, e4]) = (q, ['.', e2, e3, e4]) ∨
      splitext (q ++ ['.', e2, e3, e4]) = (q ++ ['.', e2, e3, e4], []) := by
  have hnot : '.' ∉ [e2, e3, e4] := by
    simp only [List.mem_cons, List.not_mem_nil, or_false]
    push_neg
    exact ⟨Ne.symm h2, Ne.symm h3, Ne.symm h4⟩
  have hdot : lastIndexOf '.' (q ++ ['.', e2, e3, e4]) = (q.length : Int) := by
    have he : q ++ ['.', e2, e3, e4] = q ++ '.' :: [e2, e3, e4] := rfl
    rw [he, lastIndexOf_append_last '.' q [e2, e3, e4] hnot]
  have hsplit : splitext (q ++ ['.', e2, e3, e4]) =
      if lastIndexOf '/' (q ++ ['.', e2, e3, e4]) <
            lastIndexOf '.' (q ++ ['.', e2, e3, e4]) ∧
          ((((q ++ ['.', e2, e3, e4]).drop
              (lastIndexOf '/' (q ++ ['.', e2, e3, e4]) + 1).toNat).take
            (lastIndexOf '.' (q ++ ['.', e2, e3, e4]) -
              lastIndexOf '/' (q ++ ['.', e2, e3, e4]) - 1).toNat).any
            fun c => c != '.') = true then
        ((q ++ ['.', e2, e3, e4]).take (lastIndexOf '.' (q ++ ['.', e2, e3, e4])).toNat,
          (q ++ ['.', e2, e3, e4]).drop (lastIndexOf '.' (q ++ ['.', e2, e3, e4])).toNat)
      else (q ++ ['.', e2, e3, e4], []) := rfl
  rw [hsplit]
  split
  · left
    rw [hdot, Int.toNat_natCast, List.take_left, List.drop_left]
  · right
    rfl

/-- A list accepted by the ".tif" filter of line 28 decomposes as a prefix plus
four characters lowercasing to '.', 't', 'i', 'f'. -/
theorem endsWithTif_decomp {s : List Char} (h : endsWithTifL s = true) :
    ∃ q e1 e2 e3 e4, s = q ++ [e1, e2, e3, e4] ∧
      lowerChar e1 = '.' ∧ lowerChar e2 = 't' ∧
      lowerChar e3 = 'i' ∧ lowerChar e4 = 'f' := by
  unfold endsWithTifL at h
  rw [beq_iff_eq] at h
  match hr : s.reverse with
  | [] =>
    rw [hr] at h
    rw [show List.take 4 ([] : List Char) = [] from rfl] at h
    simp at h
  | [a] =>
    rw [hr] at h
    rw [show List.take 4 [a] = [a] from rfl] at h
    simp at h
  | [a, b] =>
    rw [hr] at h
    rw [show List.take 4 [a, b] = [a, b] from rfl] at h
    simp at h
  | [a, b, c] =>
    rw [hr] at h
    rw [show List.take 4 [a, b, c] = [a, b, c] from rfl] at h
    simp at h
  | a :: b :: c :: d :: rest =>
    rw [hr] at h
    rw [show List.take 4 (a :: b :: c :: d :: rest) = [a, b, c, d] from rfl] at h
    simp only [List.map_cons, List.map_nil, List.cons.injEq, and_true] at h
    have hs : s = rest.reverse ++ [d, c, b, a] := by
      have h5 := congrArg List.reverse hr
      simp at h5
      exact h5
    exact ⟨rest.reverse, d, c, b, a, hs, h.2.2.2, h.2.2.1, h.2.1, h.1⟩

/-! ### The naming rule -/

theorem croppedImgName_split (rel base ext : List Char)
    (hsp : splitext rel = (base, ext)) (l t r b : Nat) :
    croppedImgName rel l t r b = nameBody (base.map sepToU) l t r b ++ ext := by
  unfold croppedImgName nameBody
  rw [hsp]

theorem splitU_nameBody (flat : List Char) (l t r b : Nat) :
    splitU (nameBody flat l t r b) =
      splitU flat ++ [decRepr l, decRepr t, decRepr r, decRepr b] := by
  unfold nameBody
  rw [splitU_append, splitU_append, splitU_append, splitU_append,
    splitU_decRepr, splitU_decRepr, splitU_decRepr, splitU_decRepr]
  simp

theorem nameBody_flat_inj {f1 f2 : List Char} {l1 t1 r1 b1 l2 t2 r2 b2 : Nat}
    (h : nameBody f1 l1 t1 r1 b1 = nameBody f2 l2 t2 r2 b2) : f1 = f2 := by
  have hs := congrArg splitU h
  rw [splitU_nameBody, splitU_nameBody] at hs
  exact splitU_injective (List.append_inj' hs rfl).1

theorem nameBody_ends_digit (flat : List Char) (l t r b : Nat) :
    ∃ c, (nameBody flat l t r b).getLast? = some c ∧ c ∈ "0123456789".data := by
  rcases List.eq_nil_or_concat (decRepr b) with hnil | ⟨ds, c, hd⟩
  · exact absurd hnil (decRepr_ne_nil b)
  · refine ⟨c, ?_, mem_decRepr (by rw [hd]; simp)⟩
    have he : nameBody flat l t r b =
        (flat ++ '_' :: decRepr l ++ '_' :: decRepr t ++ '_' :: decRepr r ++
          '_' :: ds) ++ [c] := by
      unfold nameBody
      rw [hd]
      simp [List.append_assoc]
    rw [he, List.getLast?_concat]

theorem decRepr_no_sep (n : Nat) : '/' ∉ decRepr n := fun hc =>
  (digit_char_facts '/' (mem_decRepr hc)).2.1 rfl

theorem sepToU_no_sep (base : List Char) : '/' ∉ base.map sepToU := by
  intro hm
  obtain ⟨d, -, hd⟩ := List.mem_map.1 hm
  unfold sepToU at hd
  split at hd
  · exact absurd hd (by decide)
  · next hne => exact hne hd

theorem nameBody_no_sep (base : List Char) (l t r b : Nat) :
    '/' ∉ nameBody (base.map sepToU) l t r b := by
  intro hm
  simp only [nameBody, List.mem_append, List.mem_cons] at hm
  casesm* _ ∨ _
  all_goals first
    | exact sepToU_no_sep base (by assumption)
    | exact decRepr_no_sep _ (by assumption)
    | exact absurd (by assumption : ('/' : Char) = '_') (by decide)

theorem croppedImgName_no_sep (rel : List Char) (h : endsWithTifL rel = true)
    (l t r b : Nat) : '/' ∉ croppedImgName rel l t r b := by
  obtain ⟨q, e1, e2, e3, e4, rfl, f1, f2, f3, f4⟩ := endsWithTif_decomp h
  have he1 : e1 = '.' := lowerChar_dot f1
  subst he1
  have h2s : e2 ≠ '/' := ne_of_lowerChar f2 (by decide)
  have h3s : e3 ≠ '/' := ne_of_lowerChar f3 (by decide)
  have h4s : e4 ≠ '/' := ne_of_lowerChar f4 (by decide)
  rcases splitext_tif q e2 e3 e4 (ne_of_lowerChar f2 (by decide))
      (ne_of_lowerChar f3 (by decide)) (ne_of_lowerChar f4 (by decide)) with hsp | hsp <;>
    rw [croppedImgName_split _ _ _ hsp] <;>
    intro hm <;>
    rcases List.mem_append.1 hm with hb | he
  · exact nameBody_no_sep q l t r b hb
  · simp only [List.mem_cons, List.not_mem_nil, or_false] at he
    rcases he with he | he | he | he
    · exact absurd he (by decide)
    · exact h2s he.symm
    · exact h3s he.symm
    · exact h4s he.symm
  · exact nameBody_no_sep (q ++ ['.', e2, e3, e4]) l t r b hb
  · simp at he

/-- C3: the output filename for a window is built from the source path relative
to the input directory by splitting off the final extension, replacing every
path separator in the extensionless part with an underscore (flat_base), and
forming flat_base + "_" + left + "_" + top + "_" + right + "_" + bottom + ext;
the name contains no path separator, and the file is placed directly under the
output directory (no subdirectories recreated). -/
theorem tile_naming (cfg : Cfg) (outDir rel : List Char) (tl : Nat × Nat)
    (h : endsWithTifL rel = true) :
    (mkCropCall cfg outDir rel tl).name =
        specTileName rel tl.2 tl.1 (tl.2 + cfg.w) (tl.1 + cfg.h) ∧
      '/' ∉ (mkCropCall cfg outDir rel tl).name ∧
      (mkCropCall cfg outDir rel tl).outPath =
        outDir ++ '/' :: (mkCropCall cfg outDir rel tl).name := by
  refine ⟨?_, ?_, rfl⟩
  · show croppedImgName rel tl.2 tl.1 (tl.2 + cfg.w) (tl.1 + cfg.h) =
      specTileName rel tl.2 tl.1 (tl.2 + cfg.w) (tl.1 + cfg.h)
    simp [croppedImgName, specTileName]
  · show '/' ∉ croppedImgName rel tl.2 tl.1 (tl.2 + cfg.w) (tl.1 + cfg.h)
    exact croppedImgName_no_sep rel h _ _ _ _

theorem tile_naming_witness :
    (mkCropCall ⟨2, 2, 1⟩ "o".data "a/b.tif".data (0, 1)).name =
        specTileName "a/b.tif".data 1 0 (1 + 2) (0 + 2) ∧
      '/' ∉ (mkCropCall ⟨2, 2, 1⟩ "o".data "a/b.tif".data (0, 1)).name ∧
      (mkCropCall ⟨2, 2, 1⟩ "o".data "a/b.tif".data (0, 1)).outPath =
        "o".data ++ '/' :: (mkCropCall ⟨2, 2, 1⟩ "o".data "a/b.tif".data (0, 1)).name :=
  tile_naming ⟨2, 2, 1⟩ "o".data "a/b.tif".data (0, 1) (by decide)

/-- C6: within a single run, two (source file, window) pairs whose source files
have distinct relative paths after separator flattening receive distinct output
filenames, whatever the two windows are (source files are those accepted by the
".tif" filter of the walk). -/
theorem tile_names_distinct (rel1 rel2 : List Char)
    (ht1 : endsWithTifL rel1 = true) (ht2 : endsWithTifL rel2 = true)
    (hne : rel1.map sepToU ≠ rel2.map sepToU)
    (l1 t1 r1 b1 l2 t2 r2 b2 : Nat) :
    croppedImgName rel1 l1 t1 r1 b1 ≠ croppedImgName rel2 l2 t2 r2 b2 := by
  intro heq
  obtain ⟨q1, a1, a2, a3, a4, rfl, g1, g2, g3, g4⟩ := endsWithTif_decomp ht1
  obtain ⟨q2, c1, c2, c3, c4, rfl, k1, k2, k3, k4⟩ := endsWithTif_decomp ht2
  have ha1 : a1 = '.' := lowerChar_dot g1
  have hc1 : c1 = '.' := lowerChar_dot k1
  subst ha1
  subst hc1
  rcases splitext_tif q1 a2 a3 a4 (ne_of_lowerChar g2 (by decide))
      (ne_of_lowerChar g3 (by decide)) (ne_of_lowerChar g4 (by decide)) with hs1 | hs1 <;>
    rcases splitext_tif q2 c2 c3 c4 (ne_of_lowerChar k2 (by decide))
      (ne_of_lowerChar k3 (by decide)) (ne_of_lowerChar k4 (by decide)) with hs2 | hs2 <;>
    rw [croppedImgName_split _ _ _ hs1, croppedImgName_split _ _ _ hs2] at heq
  · obtain ⟨hbody, hext⟩ := List.append_inj' heq rfl
    have hq : q1.map sepToU = q2.map sepToU := nameBody_flat_inj hbody
    apply hne
    rw [List.map_append, List.map_append, hq, hext]
  · rw [List.append_nil] at heq
    obtain ⟨c, hcl, hcd⟩ :=
      nameBody_ends_digit ((q2 ++ ['.', c2, c3, c4]).map sepToU) l2 t2 r2 b2
    have hl4 : (nameBody (q1.map sepToU) l1 t1 r1 b1 ++ ['.', a2, a3, a4]).getLast? =
        some a4 := by
      rw [show ['.', a2, a3, a4] = ['.', a2, a3] ++ [a4] from rfl, ← List.append_assoc,
        List.getLast?_concat]
    rw [heq, hcl] at hl4
    have hca : c = a4 := Option.some.inj hl4
    exact (digit_char_facts c hcd).1 (hca ▸ g4)
  · rw [List.append_nil] at heq
    obtain ⟨c, hcl, hcd⟩ :=
      nameBody_ends_digit ((q1 ++ ['.', a2, a3, a4]).map sepToU) l1 t1 r1 b1
    have hl4 : (nameBody (q2.map sepToU) l2 t2 r2 b2 ++ ['.', c2, c3, c4]).getLast? =
        some c4 := by
      rw [show ['.', c2, c3, c4] = ['.', c2, c3] ++ [c4] from rfl, ← List.append_assoc,
        List.getLast?_concat]
    rw [← heq, hcl] at hl4
    have hca : c = c4 := Option.some.inj hl4
    exact (digit_char_facts c hcd).1 (hca ▸ k4)
  · rw [List.append_nil, List.append_nil] at heq
    exact hne (nameBody_flat_inj heq)

theorem tile_names_distinct_witness :
    croppedImgName "a/b.tif".data 0 0 2 2 ≠ croppedImgName "c.tif".data 0 0 2 2 :=
  tile_names_distinct "a/b.tif".data "c.tif".data (by decide) (by decide)
    (by decide) 0 0 2 2 0 0 2 2

end GdalSlidingCrop
